import Mathlib

/-
  Verification development for pg_sasl_prepare/pg_sasl_prepare.c: a SASLprep
  character-preparation pass (recursive canonical decomposition over a static
  table followed by canonical combining-class reordering) together with the
  UTF-8 byte-string to code-point-array codec.

  Modelling conventions:
  - C machine integers (uint32/int32) are modelled as Nat.  Every cast in the
    C data path (int32 array cell read as uint32 and back) is bit-preserving,
    so no explicit wraparound arises; the codec produces values < 2^32 and the
    encoder section notes where the 32-bit reading matters.
  - The unbounded C recursion over the table (which could diverge on a cyclic
    table) is modelled with an explicit fuel parameter; `none` covers both a
    failed table lookup (the C code's Assert / NULL-dereference fault path)
    and fuel exhaustion.  All statements are monotone or existential in fuel.
  - C arrays are Lean lists; the in-place reordering loop threads the list
    through the recursion, and its `count` index update models the combined
    effect of the for-loop increment and the backtracking `count -= 2`.
-/

/-- Modelled from the spec: the per-code-point entry of the static
decomposition table (struct pg_utf_decomposition of utf8_table.h, which is
generated data not present in the repository sources).  `utf` is the packed
big-endian UTF-8 byte representation of the code point, `cclass` its combining
class (field `class` in C, renamed because `class` is a Lean keyword), and
`codes` its decomposition sequence.  In C `codes` is a fixed-size array whose
meaningful prefix is terminated by 0; here the list plays the array's role and
`entry_decomp` extracts the 0-terminated prefix. -/
structure pg_utf_decomposition where
  utf : Nat
  cclass : Nat
  codes : List Nat
deriving DecidableEq

/-- The static conversion table SASLPrepConv: an ordered list of entries. -/
abbrev Table := List pg_utf_decomposition

/-- get_code_entry: bsearch over the table sorted by code point, looking for
an exact match on `utf`.  On a table with at most one entry per code point,
bsearch's exact-equality search is extensionally a linear search, so it is
modelled with find?.  bsearch returns NULL when no entry matches; the C code
then runs Assert(entry != NULL) and callers dereference the pointer
unconditionally, so a miss is an unrecoverable fault, modelled as `none`
propagating through every caller. -/
def get_code_entry (t : Table) (code : Nat) : Option pg_utf_decomposition :=
  t.find? (fun e => e.utf == code)

/-- The meaningful decomposition codes of an entry: the prefix of `codes`
before the first 0, exactly the elements the C loops visit before their
`if (lcode == 0x0) break;`.  The C base-case test `entry->codes[0] == 0x0`
is equivalent to this prefix being empty. -/
def entry_decomp (e : pg_utf_decomposition) : List Nat :=
  e.codes.takeWhile (fun c => c != 0)

/-- Combining class of a code point as the reordering pass reads it
(entry->class).  Total function for stating properties; on a missing entry
(where the C code faults) it defaults to 0, but every theorem that uses it
only does so where the lookup succeeded. -/
def classOf (t : Table) (code : Nat) : Nat :=
  match get_code_entry t code with
  | some e => e.cclass
  | none => 0

/-- Recursion core shared by get_decomposed_size over a list of codes: the
sum of recursive decomposed sizes of the list elements, as computed by the
loop of get_decomposed_size.  Fuel is consumed at each recursion step; the C
recursion has no bound (a well-formed table makes it finite). -/
def size_list (t : Table) : Nat → List Nat → Option Nat
  | 0, _ => none
  | _ + 1, [] => some 0
  | fuel + 1, code :: rest =>
    let head :=
      match get_code_entry t code with
      | none => none
      | some entry =>
        if entry_decomp entry = [] then some 1
        else size_list t fuel (entry_decomp entry)
    match head, size_list t fuel rest with
    | some a, some b => some (a + b)
    | _, _ => none

/-- get_decomposed_size: recursively count how many characters `code`
decomposes into.  Returns 1 when the entry has no decomposition codes,
otherwise the sum over the entry's decomposition codes. -/
def get_decomposed_size (t : Table) (fuel : Nat) (code : Nat) : Option Nat :=
  match fuel with
  | 0 => none
  | fuel + 1 =>
    match get_code_entry t code with
    | none => none
    | some entry =>
      if entry_decomp entry = [] then some 1
      else size_list t fuel (entry_decomp entry)

/-- Recursion core shared by decompose_code over a list of codes: the
concatenation, in order, of the recursive decompositions of the list
elements.  The C version appends into a caller-provided buffer through a
cursor; returning the appended segment is the state-free rendering. -/
def decompose_list (t : Table) : Nat → List Nat → Option (List Nat)
  | 0, _ => none
  | _ + 1, [] => some []
  | fuel + 1, code :: rest =>
    let head :=
      match get_code_entry t code with
      | none => none
      | some entry =>
        if entry_decomp entry = [] then some [code]
        else decompose_list t fuel (entry_decomp entry)
    match head, decompose_list t fuel rest with
    | some a, some b => some (a ++ b)
    | _, _ => none

/-- decompose_code: the elements the fill pass appends for `code`.  When the
entry has no decomposition codes it writes `code` itself; otherwise it
recurses into each decomposition code in order. -/
def decompose_code (t : Table) (fuel : Nat) (code : Nat) : Option (List Nat) :=
  match fuel with
  | 0 => none
  | fuel + 1 =>
    match get_code_entry t code with
    | none => none
    | some entry =>
      if entry_decomp entry = [] then some [code]
      else decompose_list t fuel (entry_decomp entry)

/-- First pass of pg_sasl_prepare: the total decomposed size, summing
get_decomposed_size over the input elements. -/
def size_input (t : Table) (fuel : Nat) : List Nat → Option Nat
  | [] => some 0
  | code :: rest =>
    match get_decomposed_size t fuel code, size_input t fuel rest with
    | some a, some b => some (a + b)
    | _, _ => none

/-- Second pass of pg_sasl_prepare: fill the result by concatenating
decompose_code over the input elements in order. -/
def decompose_input (t : Table) (fuel : Nat) : List Nat → Option (List Nat)
  | [] => some []
  | code :: rest =>
    match decompose_code t fuel code, decompose_input t fuel rest with
    | some a, some b => some (a ++ b)
    | _, _ => none

/-- The exchangeable-pair test of the reordering loop, as a Boolean on the
combining classes: the pair (a, b) is exchanged exactly when b is not a
starter and a's class is strictly greater (the two `continue` guards of the
C loop negated). -/
def badPairB (cls : Nat → Nat) (a b : Nat) : Bool :=
  (cls b != 0) && (cls b < cls a)

/-- Number of exchangeable (inverted) pairs i < j in the list: the measure
that each swap of the reordering loop strictly decreases. -/
def inversions (cls : Nat → Nat) : List Nat → Nat
  | [] => 0
  | a :: rest => rest.countP (fun b => badPairB cls a b) + inversions cls rest

/-- The canonical-ordering loop of pg_sasl_prepare (lines 229-259).  State is
the array and the scan index `count` (initially 1).  Each iteration reads the
adjacent pair at count-1/count, leaves it alone when either is a starter or
already ordered, and otherwise swaps and backtracks: the C `count -= 2`
followed by the for-loop `count++` nets to count-1 when count > 1 and to
count+1 when count = 1.  One fuel unit per iteration; `none` is a failed
entry lookup (C fault) or fuel exhaustion. -/
def reorder_loop (t : Table) : Nat → List Nat → Nat → Option (List Nat)
  | 0, arr, count => if count < arr.length then none else some arr
  | fuel + 1, arr, count =>
    if count < arr.length then
      match get_code_entry t (arr.getD (count - 1) 0),
            get_code_entry t (arr.getD count 0) with
      | some prevEntry, some nextEntry =>
        if nextEntry.cclass = 0 ∨ prevEntry.cclass = 0 then
          reorder_loop t fuel arr (count + 1)
        else if prevEntry.cclass ≤ nextEntry.cclass then
          reorder_loop t fuel arr (count + 1)
        else
          reorder_loop t fuel
            ((arr.set (count - 1) (arr.getD count 0)).set count
              (arr.getD (count - 1) 0))
            (if 1 < count then count - 1 else count + 1)
      | _, _ => none
    else some arr

/-- pg_sasl_prepare: size pass, fill pass, then canonical reordering of the
filled array, returned to the caller. -/
def pg_sasl_prepare (t : Table) (fuel : Nat) (input : List Nat) :
    Option (List Nat) :=
  match size_input t fuel input with
  | none => none
  | some _ =>
    match decompose_input t fuel input with
    | none => none
    | some d => reorder_loop t fuel d 1

/-- Byte of the C string at index i; the list holds the bytes before the
terminating NUL, so reads at or past the end (the terminator, or the reads
the C validation can make just past a short final unit) yield 0. -/
def byteAt (s : List Nat) (i : Nat) : Nat := s.getD i 0

/-- Modelled from the spec: pg_utf_mblen of mb/pg_wchar (host function, not
in the repository sources) — the byte length of a UTF-8 unit as determined
from its first byte, used by both codec passes to advance the cursor. -/
def pg_utf_mblen (b : Nat) : Nat :=
  if b &&& 0x80 = 0 then 1
  else if b &&& 0xe0 = 0xc0 then 2
  else if b &&& 0xf0 = 0xe0 then 3
  else if b &&& 0xf8 = 0xf0 then 4
  else 1

/-- Modelled from the spec: the continuation-byte range check of
pg_utf8_islegal (0x80..0xBF). -/
def contOK (a : Nat) : Bool := 0x80 ≤ a && a ≤ 0xBF

/-- Modelled from the spec: the second-byte check of pg_utf8_islegal, which
switches on the first byte to reject overlong encodings, surrogates and
values beyond U+10FFFF. -/
def byte1OK (b0 a : Nat) : Bool :=
  if b0 = 0xE0 then 0xA0 ≤ a && a ≤ 0xBF
  else if b0 = 0xED then 0x80 ≤ a && a ≤ 0x9F
  else if b0 = 0xF0 then 0x90 ≤ a && a ≤ 0xBF
  else if b0 = 0xF4 then 0x80 ≤ a && a ≤ 0x8F
  else 0x80 ≤ a && a ≤ 0xBF

/-- Modelled from the spec: the first-byte check of pg_utf8_islegal (a bare
continuation or overlong lead 0x80..0xC1 is illegal, as is anything above
0xF4). -/
def headOK (a : Nat) : Bool := !(0x80 ≤ a && a < 0xC2) && a ≤ 0xF4

/-- Modelled from the spec: pg_utf8_islegal of mb/pg_wchar (host function,
not in the repository sources) — legality of one UTF-8 unit of the given
length starting at `s`, mirroring the C switch with fall-through: lengths
other than 1-4 are illegal, trailing bytes must be continuations, the second
byte must satisfy the lead-byte-specific range, and the first byte must be a
legal lead byte. -/
def pg_utf8_islegal (s : List Nat) (l : Nat) : Bool :=
  match l with
  | 1 => headOK (byteAt s 0)
  | 2 => byte1OK (byteAt s 0) (byteAt s 1) && headOK (byteAt s 0)
  | 3 => contOK (byteAt s 2) && byte1OK (byteAt s 0) (byteAt s 1) &&
         headOK (byteAt s 0)
  | 4 => contOK (byteAt s 3) && contOK (byteAt s 2) &&
         byte1OK (byteAt s 0) (byteAt s 1) && headOK (byteAt s 0)
  | _ => false

/-- First pass of utf8_to_array (lines 288-299): scan the string unit by
unit, counting scalars, and fail on the first illegal unit.  The while loop
stops at the NUL terminator, here the end of the list or an embedded 0. -/
def utf8_count : List Nat → Option Nat
  | [] => some 0
  | b :: rest =>
    if b = 0 then some 0
    else if pg_utf8_islegal (b :: rest) (pg_utf_mblen b) then
      match utf8_count ((b :: rest).drop (pg_utf_mblen b)) with
      | some n => some (n + 1)
      | none => none
    else none
termination_by s => s.length
decreasing_by
  have h1 : ∀ x : Nat, 1 ≤ pg_utf_mblen x := by
    intro x
    unfold pg_utf_mblen
    repeat' split
    all_goals omega
  simp only [List.length_drop, List.length_cons]
  exact Nat.sub_lt (Nat.succ_pos _) (h1 _)

/-- The big-endian packing of one UTF-8 unit into a single integer, as built
by the second pass of utf8_to_array for each unit length (the packed value is
not the Unicode scalar; it is the raw bytes, most significant first).  Length
values other than 1-4 hit the C elog error path, unreachable because
pg_utf_mblen only returns 1-4; 0 stands in for it. -/
def utf8_pack (s : List Nat) (l : Nat) : Nat :=
  match l with
  | 1 => byteAt s 0
  | 2 => (byteAt s 0) <<< 8 ||| byteAt s 1
  | 3 => (byteAt s 0) <<< 16 ||| (byteAt s 1) <<< 8 ||| byteAt s 2
  | 4 => (byteAt s 0) <<< 24 ||| (byteAt s 1) <<< 16 |||
         (byteAt s 2) <<< 8 ||| byteAt s 3
  | _ => 0

/-- Second pass of utf8_to_array (lines 309-344): walk the string again and
pack each unit; no re-validation happens in this pass. -/
def utf8_fill : List Nat → List Nat
  | [] => []
  | b :: rest =>
    if b = 0 then []
    else utf8_pack (b :: rest) (pg_utf_mblen b) ::
         utf8_fill ((b :: rest).drop (pg_utf_mblen b))
termination_by s => s.length
decreasing_by
  have h1 : ∀ x : Nat, 1 ≤ pg_utf_mblen x := by
    intro x
    unfold pg_utf_mblen
    repeat' split
    all_goals omega
  simp only [List.length_drop, List.length_cons]
  exact Nat.sub_lt (Nat.succ_pos _) (h1 _)

/-- utf8_to_array: validate and count in a first pass (any illegal unit
aborts the whole call with an error and no array is built), then fill the
array in a second pass. -/
def utf8_to_array (s : List Nat) : Option (List Nat) :=
  match utf8_count s with
  | none => none
  | some _ => some (utf8_fill s)

/-- The bytes array_to_utf8 emits for one array element (both passes test the
same masks; the size pass counts exactly the bytes the fill pass writes): for
each of the four bytes of the 32-bit value, most significant first, emit it
iff it is non-zero.  The % 256 is the implicit char truncation of the store
into the string; for 32-bit values it never truncates. -/
def emit_code (code : Nat) : List Nat :=
  (if code &&& 0xff000000 ≠ 0 then [(code >>> 24) % 256] else []) ++
  (if code &&& 0x00ff0000 ≠ 0 then [(code >>> 16) % 256] else []) ++
  (if code &&& 0x0000ff00 ≠ 0 then [(code >>> 8) % 256] else []) ++
  (if code &&& 0x000000ff ≠ 0 then [code % 256] else [])

/-- array_to_utf8: concatenation of the emitted bytes of each element in
order.  The C builds a NUL-terminated buffer and converts it with
cstring_to_text; every emitted byte is non-zero by construction, so the
resulting text is exactly this concatenation. -/
def array_to_utf8 (input : List Nat) : List Nat :=
  (input.map emit_code).flatten

/-- The four bytes of the 4-byte big-endian representation of a 32-bit value,
most significant first (the spec-side description against which emit_code is
compared). -/
def be_bytes (code : Nat) : List Nat :=
  [(code >>> 24) % 256, (code >>> 16) % 256, (code >>> 8) % 256, code % 256]

/-- One scanned unit of a legally encoded UTF-8 string: non-empty, all
elements bytes, first byte non-NUL (the while-loop guard), its length is what
pg_utf_mblen derives from its first byte, and pg_utf8_islegal accepts it. -/
def legalUnit (u : List Nat) : Prop :=
  u ≠ [] ∧ (∀ b ∈ u, b < 256) ∧ byteAt u 0 ≠ 0 ∧
  u.length = pg_utf_mblen (byteAt u 0) ∧ pg_utf8_islegal u u.length = true

instance (u : List Nat) : Decidable (legalUnit u) := by
  unfold legalUnit
  infer_instance

/-- A legally encoded UTF-8 byte string (no embedded NUL): a concatenation of
legal units. -/
def LegalUtf8 (bytes : List Nat) : Prop :=
  ∃ us : List (List Nat), (∀ u ∈ us, legalUnit u) ∧ bytes = us.flatten

/-- Concrete table used to instantiate the universally quantified theorems:
code points 1-3 are terminal with classes 0, 230, 220; code point 4
decomposes into [2, 3]. -/
def exTable : Table :=
  [ { utf := 1, cclass := 0, codes := [] },
    { utf := 2, cclass := 230, codes := [] },
    { utf := 3, cclass := 220, codes := [] },
    { utf := 4, cclass := 0, codes := [2, 3] } ]

/-- The count-only pass and the fill pass recurse identically: over any list
of codes, the size computed by the loop of get_decomposed_size equals the
length of the segment the loop of decompose_code appends, at every fuel
(both fail together on a lookup miss or fuel exhaustion). -/
theorem size_list_eq_length (t : Table) :
    ∀ fuel l, (decompose_list t fuel l).map List.length = size_list t fuel l := by
  intro fuel
  induction fuel with
  | zero => intro l; rfl
  | succ fuel ih =>
    intro l
    cases l with
    | nil => rfl
    | cons code rest =>
      simp only [decompose_list, size_list, ← ih]
      cases hent : get_code_entry t code with
      | none =>
        simp only []
        cases decompose_list t fuel rest <;> rfl
      | some entry =>
        by_cases hd : entry_decomp entry = []
        · simp only [hd, if_pos rfl]
          cases decompose_list t fuel rest <;> simp [Nat.add_comm]
        · simp only [if_neg hd]
          cases decompose_list t fuel (entry_decomp entry) <;>
            cases decompose_list t fuel rest <;> simp

/-- Per-code version: get_decomposed_size computes exactly the length of the
list decompose_code appends. -/
theorem decompose_code_eq_length (t : Table) (fuel code : Nat) :
    (decompose_code t fuel code).map List.length =
      get_decomposed_size t fuel code := by
  cases fuel with
  | zero => rfl
  | succ fuel =>
    simp only [decompose_code, get_decomposed_size]
    cases hent : get_code_entry t code with
    | none => rfl
    | some entry =>
      by_cases hd : entry_decomp entry = []
      · simp [hd]
      · simp only [if_neg hd]
        exact size_list_eq_length t fuel (entry_decomp entry)

/-- Whole-input version: the summed sizes of the first pass of
pg_sasl_prepare equal the length of the array the second pass fills. -/
theorem size_input_eq_length (t : Table) (fuel : Nat) :
    ∀ input, (decompose_input t fuel input).map List.length =
      size_input t fuel input := by
  intro input
  induction input with
  | nil => rfl
  | cons code rest ih =>
    simp only [decompose_input, size_input, ← decompose_code_eq_length, ← ih]
    cases decompose_code t fuel code <;>
      cases decompose_input t fuel rest <;> simp

/-- Every element the decomposition loop appends was written by the base case
of decompose_code, so it has a table entry with an empty decomposition. -/
theorem decompose_list_terminal_aux (t : Table) :
    ∀ fuel l out, decompose_list t fuel l = some out →
      ∀ x ∈ out, ∃ e, get_code_entry t x = some e ∧ entry_decomp e = [] := by
  intro fuel
  induction fuel with
  | zero => intro l out h; exact absurd h (by simp [decompose_list])
  | succ fuel ih =>
    intro l out h
    cases l with
    | nil =>
      simp only [decompose_list, Option.some.injEq] at h
      subst h
      intro x hx
      exact absurd hx (List.not_mem_nil x)
    | cons code rest =>
      simp only [decompose_list] at h
      cases hent : get_code_entry t code with
      | none =>
        simp only [hent] at h
        exact Option.noConfusion h
      | some entry =>
        simp only [hent] at h
        by_cases hd : entry_decomp entry = []
        · rw [if_pos hd] at h
          cases hrest : decompose_list t fuel rest with
          | none => rw [hrest] at h; exact absurd h (by simp)
          | some b =>
            rw [hrest] at h
            simp only [Option.some.injEq] at h
            subst h
            intro x hx
            rcases List.mem_append.mp hx with hx | hx
            · rcases List.mem_singleton.mp hx with rfl
              exact ⟨entry, hent, hd⟩
            · exact ih rest b hrest x hx
        · rw [if_neg hd] at h
          cases hhead : decompose_list t fuel (entry_decomp entry) with
          | none => rw [hhead] at h; exact absurd h (by simp)
          | some a =>
            rw [hhead] at h
            cases hrest : decompose_list t fuel rest with
            | none => rw [hrest] at h; exact absurd h (by simp)
            | some b =>
              rw [hrest] at h
              simp only [Option.some.injEq] at h
              subst h
              intro x hx
              rcases List.mem_append.mp hx with hx | hx
              · exact ih (entry_decomp entry) a hhead x hx
              · exact ih rest b hrest x hx

/-- Per-code terminality of decompose_code output. -/
theorem decompose_code_terminal_aux (t : Table) (fuel code : Nat)
    (out : List Nat) (h : decompose_code t fuel code = some out) :
    ∀ x ∈ out, ∃ e, get_code_entry t x = some e ∧ entry_decomp e = [] := by
  cases fuel with
  | zero => exact absurd h (by simp [decompose_code])
  | succ fuel =>
    simp only [decompose_code] at h
    cases hent : get_code_entry t code with
    | none =>
      simp only [hent] at h
      exact Option.noConfusion h
    | some entry =>
      simp only [hent] at h
      by_cases hd : entry_decomp entry = []
      · rw [if_pos hd] at h
        simp only [Option.some.injEq] at h
        subst h
        intro x hx
        rcases List.mem_singleton.mp hx with rfl
        exact ⟨entry, hent, hd⟩
      · rw [if_neg hd] at h
        exact decompose_list_terminal_aux t fuel (entry_decomp entry) out h

/-- Whole-input terminality: every element of the array built by the fill
pass of pg_sasl_prepare is terminal. -/
theorem decompose_input_terminal_aux (t : Table) (fuel : Nat) :
    ∀ input out, decompose_input t fuel input = some out →
      ∀ x ∈ out, ∃ e, get_code_entry t x = some e ∧ entry_decomp e = [] := by
  intro input
  induction input with
  | nil =>
    intro out h
    simp only [decompose_input, Option.some.injEq] at h
    subst h
    intro x hx
    exact absurd hx (List.not_mem_nil x)
  | cons code rest ih =>
    intro out h
    simp only [decompose_input] at h
    cases hhead : decompose_code t fuel code with
    | none => rw [hhead] at h; exact absurd h (by simp)
    | some a =>
      rw [hhead] at h
      cases hrest : decompose_input t fuel rest with
      | none => rw [hrest] at h; exact absurd h (by simp)
      | some b =>
        rw [hrest] at h
        simp only [Option.some.injEq] at h
        subst h
        intro x hx
        rcases List.mem_append.mp hx with hx | hx
        · exact decompose_code_terminal_aux t fuel code a hhead x hx
        · exact ih b hrest x hx

/-- On a terminal code point (entry present, empty decomposition),
get_decomposed_size returns 1 as soon as there is any fuel. -/
theorem get_decomposed_size_terminal (t : Table) (fuel code : Nat)
    (e : pg_utf_decomposition) (hent : get_code_entry t code = some e)
    (hd : entry_decomp e = []) :
    get_decomposed_size t (fuel + 1) code = some 1 := by
  simp [get_decomposed_size, hent, hd]

/-- On a list of terminal code points the size pass succeeds, summing 1 per
element. -/
theorem size_input_terminal (t : Table) (fuel : Nat) :
    ∀ l, (∀ x ∈ l, ∃ e, get_code_entry t x = some e ∧ entry_decomp e = []) →
      size_input t (fuel + 1) l = some l.length := by
  intro l
  induction l with
  | nil => intro _; rfl
  | cons code rest ih =>
    intro h
    rcases h code (List.mem_cons_self code rest) with ⟨e, hent, hd⟩
    have hrest := ih (fun x hx => h x (List.mem_cons_of_mem code hx))
    simp [size_input, get_decomposed_size_terminal t fuel code e hent hd,
      hrest, Nat.add_comm]

/-- On a list of terminal code points the fill pass reproduces the list. -/
theorem decompose_input_terminal_id (t : Table) (fuel : Nat) :
    ∀ l, (∀ x ∈ l, ∃ e, get_code_entry t x = some e ∧ entry_decomp e = []) →
      decompose_input t (fuel + 1) l = some l := by
  intro l
  induction l with
  | nil => intro _; rfl
  | cons code rest ih =>
    intro h
    rcases h code (List.mem_cons_self code rest) with ⟨e, hent, hd⟩
    have hrest := ih (fun x hx => h x (List.mem_cons_of_mem code hx))
    simp [decompose_input, decompose_code, hent, hd, hrest]

/-- A lookup miss on any input element makes the size pass, and with it the
whole pg_sasl_prepare call, abort abnormally. -/
theorem size_input_miss (t : Table) (fuel : Nat) :
    ∀ input c, c ∈ input → get_code_entry t c = none →
      size_input t fuel input = none := by
  intro input
  induction input with
  | nil => intro c hc; exact absurd hc (List.not_mem_nil c)
  | cons code rest ih =>
    intro c hc hmiss
    have hnone : get_decomposed_size t fuel c = none := by
      cases fuel with
      | zero => rfl
      | succ fuel => simp [get_decomposed_size, hmiss]
    rcases List.mem_cons.mp hc with rfl | hc
    · simp [size_input, hnone]
    · simp only [size_input, ih c hc hmiss]
      cases get_decomposed_size t fuel code <;> rfl

/-- A list with two consecutive in-range positions splits around them. -/
theorem list_decomp_two :
    ∀ (i : Nat) (l : List Nat), i + 1 < l.length →
      l = l.take i ++ [l.getD i 0, l.getD (i + 1) 0] ++ l.drop (i + 2) := by
  intro i
  induction i with
  | zero =>
    intro l hl
    match l, hl with
    | a :: b :: l'', _ => simp
  | succ i ih =>
    intro l hl
    match l, hl with
    | a :: l', hl =>
      have := ih l' (by simpa using hl)
      simpa using this

/-- The double set of the exchange branch rewrites the two positions in
place: the swap is the exchange of the two middle elements of the split. -/
theorem swap_set_decomp :
    ∀ (i : Nat) (l : List Nat), i + 1 < l.length →
      (l.set i (l.getD (i + 1) 0)).set (i + 1) (l.getD i 0) =
        l.take i ++ [l.getD (i + 1) 0, l.getD i 0] ++ l.drop (i + 2) := by
  intro i
  induction i with
  | zero =>
    intro l hl
    match l, hl with
    | a :: b :: l'', _ => simp
  | succ i ih =>
    intro l hl
    match l, hl with
    | a :: l', hl =>
      have := ih l' (by simpa using hl)
      simpa using this

/-- Exchanging an exchangeable adjacent pair removes exactly one inverted
pair: the pair itself flips from inverted to ordered and every other pair
keeps its status. -/
theorem inversions_swap (cls : Nat → Nat) (a b : Nat)
    (h : badPairB cls a b = true) :
    ∀ pre suf, inversions cls (pre ++ b :: a :: suf) + 1 =
      inversions cls (pre ++ a :: b :: suf) := by
  have hab : badPairB cls a b = true := h
  have hba : badPairB cls b a = false := by
    simp only [badPairB, Bool.and_eq_true, bne_iff_ne, ne_eq,
      decide_eq_true_eq] at hab
    simp only [badPairB, Bool.and_eq_false_iff, bne_eq_false_iff_eq,
      decide_eq_false_iff_not, not_lt]
    right
    omega
  intro pre
  induction pre with
  | nil =>
    intro suf
    simp only [List.nil_append, inversions, List.countP_cons, hab, hba]
    simp only [if_true, Bool.false_eq_true, if_false]
    omega
  | cons x pre ih =>
    intro suf
    simp only [List.cons_append, inversions, List.append_eq,
      List.countP_append, List.countP_cons, ← ih suf]
    omega

/-- getD of an in-range index is a member. -/
theorem getD_mem_of_lt (l : List Nat) (i : Nat) (h : i < l.length) :
    l.getD i 0 ∈ l := by
  rw [List.getD_eq_getElem?_getD, List.getElem?_eq_getElem h]
  exact List.getElem_mem h

/-- getD at the written index of set. -/
theorem getD_set_self (l : List Nat) (i x : Nat) (h : i < l.length) :
    (l.set i x).getD i 0 = x := by
  rw [List.getD_eq_getElem?_getD, List.getElem?_set_self h]
  rfl

/-- getD at another index of set. -/
theorem getD_set_other (l : List Nat) (i j x : Nat) (h : i ≠ j) :
    (l.set i x).getD j 0 = l.getD j 0 := by
  rw [List.getD_eq_getElem?_getD, List.getElem?_set_ne h,
    ← List.getD_eq_getElem?_getD]

/-- classOf reads the entry's class when the lookup succeeds. -/
theorem classOf_eq (t : Table) (c : Nat) (e : pg_utf_decomposition)
    (hent : get_code_entry t c = some e) : classOf t c = e.cclass := by
  simp [classOf, hent]

/-- Invariant of the reordering loop: every adjacent pair strictly left of
the scan index is not exchangeable, and this is preserved to the end of the
scan, so the returned array has no exchangeable adjacent pair at all.  The
backtracking step keeps the invariant because the swap only disturbs the
pair ending exactly where the scan resumes. -/
theorem reorder_loop_sorted_aux (t : Table) :
    ∀ fuel arr count r, 1 ≤ count →
      reorder_loop t fuel arr count = some r →
      (∀ i, 1 ≤ i → i < count → i < arr.length →
        badPairB (classOf t) (arr.getD (i - 1) 0) (arr.getD i 0) = false) →
      ∀ i, 1 ≤ i → i < r.length →
        badPairB (classOf t) (r.getD (i - 1) 0) (r.getD i 0) = false := by
  intro fuel
  induction fuel with
  | zero =>
    intro arr count r h1 h hinv
    simp only [reorder_loop] at h
    by_cases hlt : count < arr.length
    · rw [if_pos hlt] at h; exact Option.noConfusion h
    · rw [if_neg hlt] at h
      simp only [Option.some.injEq] at h
      subst h
      intro i hi1 hir
      exact hinv i hi1 (by omega) hir
  | succ fuel ih =>
    intro arr count r h1 h hinv
    simp only [reorder_loop] at h
    by_cases hlt : count < arr.length
    · rw [if_pos hlt] at h
      cases hprev : get_code_entry t (arr.getD (count - 1) 0) with
      | none =>
        simp only [hprev] at h
        exact Option.noConfusion h
      | some eprev =>
        cases hnext : get_code_entry t (arr.getD count 0) with
        | none =>
          simp only [hprev, hnext] at h
          exact Option.noConfusion h
        | some enext =>
          simp only [hprev, hnext] at h
          have hclsp : classOf t (arr.getD (count - 1) 0) = eprev.cclass :=
            classOf_eq t _ eprev hprev
          have hclsn : classOf t (arr.getD count 0) = enext.cclass :=
            classOf_eq t _ enext hnext
          by_cases hc1 : enext.cclass = 0 ∨ eprev.cclass = 0
          · rw [if_pos hc1] at h
            refine ih arr (count + 1) r (by omega) h ?_
            intro i hi1 hic hil
            by_cases hieq : i = count
            · subst hieq
              simp only [badPairB, hclsp, hclsn]
              rcases hc1 with hc1 | hc1 <;> simp [hc1]
            · exact hinv i hi1 (by omega) hil
          · rw [if_neg hc1] at h
            by_cases hc2 : eprev.cclass ≤ enext.cclass
            · rw [if_pos hc2] at h
              refine ih arr (count + 1) r (by omega) h ?_
              intro i hi1 hic hil
              by_cases hieq : i = count
              · subst hieq
                simp only [badPairB, hclsp, hclsn]
                simp only [Bool.and_eq_false_iff, decide_eq_false_iff_not,
                  not_lt]
                right
                exact hc2
              · exact hinv i hi1 (by omega) hil
            · rw [if_neg hc2] at h
              by_cases hcg : 1 < count
              · rw [if_pos hcg] at h
                refine ih _ (count - 1) r (by omega) h ?_
                intro i hi1 hic hil
                have hi0 : i - 1 ≠ count - 1 ∧ i - 1 ≠ count := by omega
                have hii : i ≠ count - 1 ∧ i ≠ count := by omega
                rw [getD_set_other _ _ _ _ (by omega),
                  getD_set_other _ _ _ _ (by omega),
                  getD_set_other _ _ _ _ (by omega),
                  getD_set_other _ _ _ _ (by omega)]
                refine hinv i hi1 (by omega) ?_
                simpa using hil
              · rw [if_neg hcg] at h
                have hc1' : count = 1 := by omega
                subst hc1'
                refine ih _ 2 r (by omega) h ?_
                intro i hi1 hic hil
                have hieq : i = 1 := by omega
                subst hieq
                have hl0 : (0 : Nat) < arr.length := by omega
                have hg0 :
                    ((arr.set 0 (arr.getD 1 0)).set 1
                      (arr.getD 0 0)).getD 0 0 = arr.getD 1 0 := by
                  rw [getD_set_other _ _ _ _ (by omega),
                    getD_set_self _ _ _ hl0]
                have hg1 :
                    ((arr.set 0 (arr.getD 1 0)).set 1
                      (arr.getD 0 0)).getD 1 0 = arr.getD 0 0 := by
                  rw [getD_set_self _ _ _ (by simpa using hlt)]
                simp only [Nat.sub_self, hg0, hg1, badPairB, hclsp, hclsn]
                simp only [Bool.and_eq_false_iff, decide_eq_false_iff_not,
                  not_lt]
                right
                omega
    · rw [if_neg hlt] at h
      simp only [Option.some.injEq] at h
      subst h
      intro i hi1 hir
      exact hinv i hi1 (by omega) hir

/-- On an array with no exchangeable adjacent pair and complete lookups, the
loop only ever takes the continue branches and returns the array unchanged,
in at most one iteration per remaining position. -/
theorem reorder_loop_noop (t : Table) :
    ∀ fuel count arr, 1 ≤ count →
      (∀ x ∈ arr, (get_code_entry t x).isSome) →
      (∀ i, 1 ≤ i → i < arr.length →
        badPairB (classOf t) (arr.getD (i - 1) 0) (arr.getD i 0) = false) →
      arr.length ≤ count + fuel →
      reorder_loop t fuel arr count = some arr := by
  intro fuel
  induction fuel with
  | zero =>
    intro count arr h1 hcomp hsort hle
    simp only [reorder_loop]
    rw [if_neg (by omega)]
  | succ fuel ih =>
    intro count arr h1 hcomp hsort hle
    simp only [reorder_loop]
    by_cases hlt : count < arr.length
    · rw [if_pos hlt]
      have hmp : arr.getD (count - 1) 0 ∈ arr :=
        getD_mem_of_lt arr (count - 1) (by omega)
      have hmn : arr.getD count 0 ∈ arr := getD_mem_of_lt arr count hlt
      rcases Option.isSome_iff_exists.mp (hcomp _ hmp) with ⟨eprev, hprev⟩
      rcases Option.isSome_iff_exists.mp (hcomp _ hmn) with ⟨enext, hnext⟩
      simp only [hprev, hnext]
      have hbad := hsort count (by omega) hlt
      simp only [badPairB, classOf_eq t _ eprev hprev,
        classOf_eq t _ enext hnext] at hbad
      simp only [Bool.and_eq_false_iff, bne_eq_false_iff_eq,
        decide_eq_false_iff_not, not_lt] at hbad
      by_cases hc1 : enext.cclass = 0 ∨ eprev.cclass = 0
      · rw [if_pos hc1]
        exact ih (count + 1) arr (by omega) hcomp hsort (by omega)
      · rw [if_neg hc1]
        have hc2 : eprev.cclass ≤ enext.cclass := by
          rcases hbad with hbad | hbad
          · exact absurd (Or.inl hbad) hc1
          · exact hbad
        rw [if_pos hc2]
        exact ih (count + 1) arr (by omega) hcomp hsort (by omega)
    · rw [if_neg hlt]

/-- The loop only rearranges: every element of the returned array was in the
input array. -/
theorem reorder_loop_mem (t : Table) :
    ∀ fuel arr count r, reorder_loop t fuel arr count = some r →
      ∀ x ∈ r, x ∈ arr := by
  intro fuel
  induction fuel with
  | zero =>
    intro arr count r h
    simp only [reorder_loop] at h
    by_cases hlt : count < arr.length
    · rw [if_pos hlt] at h; exact Option.noConfusion h
    · rw [if_neg hlt] at h
      simp only [Option.some.injEq] at h
      subst h
      exact fun x hx => hx
  | succ fuel ih =>
    intro arr count r h
    simp only [reorder_loop] at h
    by_cases hlt : count < arr.length
    · rw [if_pos hlt] at h
      cases hprev : get_code_entry t (arr.getD (count - 1) 0) with
      | none =>
        simp only [hprev] at h
        exact Option.noConfusion h
      | some eprev =>
        cases hnext : get_code_entry t (arr.getD count 0) with
        | none =>
          simp only [hprev, hnext] at h
          exact Option.noConfusion h
        | some enext =>
          simp only [hprev, hnext] at h
          by_cases hc1 : enext.cclass = 0 ∨ eprev.cclass = 0
          · rw [if_pos hc1] at h
            exact ih arr (count + 1) r h
          · rw [if_neg hc1] at h
            by_cases hc2 : eprev.cclass ≤ enext.cclass
            · rw [if_pos hc2] at h
              exact ih arr (count + 1) r h
            · rw [if_neg hc2] at h
              intro x hx
              have hx' := ih _ _ r h x hx
              rcases List.mem_or_eq_of_mem_set hx' with hx'' | rfl
              · rcases List.mem_or_eq_of_mem_set hx'' with hx3 | rfl
                · exact hx3
                · exact getD_mem_of_lt arr count hlt
              · exact getD_mem_of_lt arr (count - 1) (by omega)
    · rw [if_neg hlt] at h
      simp only [Option.some.injEq] at h
      subst h
      exact fun x hx => hx

/-- Starters are never touched: a swap always exchanges two elements of
non-zero class, so the subsequence of class-0 elements is unchanged by the
whole loop. -/
theorem reorder_loop_filter_aux (t : Table) :
    ∀ fuel arr count r, 1 ≤ count →
      reorder_loop t fuel arr count = some r →
      r.filter (fun x => classOf t x == 0) =
        arr.filter (fun x => classOf t x == 0) := by
  intro fuel
  induction fuel with
  | zero =>
    intro arr count r h1 h
    simp only [reorder_loop] at h
    by_cases hlt : count < arr.length
    · rw [if_pos hlt] at h; exact Option.noConfusion h
    · rw [if_neg hlt] at h
      simp only [Option.some.injEq] at h
      subst h
      rfl
  | succ fuel ih =>
    intro arr count r h1 h
    simp only [reorder_loop] at h
    by_cases hlt : count < arr.length
    · rw [if_pos hlt] at h
      cases hprev : get_code_entry t (arr.getD (count - 1) 0) with
      | none =>
        simp only [hprev] at h
        exact Option.noConfusion h
      | some eprev =>
        cases hnext : get_code_entry t (arr.getD count 0) with
        | none =>
          simp only [hprev, hnext] at h
          exact Option.noConfusion h
        | some enext =>
          simp only [hprev, hnext] at h
          by_cases hc1 : enext.cclass = 0 ∨ eprev.cclass = 0
          · rw [if_pos hc1] at h
            exact ih arr (count + 1) r (by omega) h
          · rw [if_neg hc1] at h
            by_cases hc2 : eprev.cclass ≤ enext.cclass
            · rw [if_pos hc2] at h
              exact ih arr (count + 1) r (by omega) h
            · rw [if_neg hc2] at h
              have hstep := ih _ _ r (by split <;> omega) h
              rw [hstep]
              have hsw := swap_set_decomp (count - 1) arr (by omega)
              have hdc := list_decomp_two (count - 1) arr (by omega)
              rw [Nat.sub_add_cancel h1] at hsw hdc
              rw [hsw]
              conv_rhs => rw [hdc]
              have hpz : ¬ classOf t (arr[count - 1]?.getD 0) = 0 := by
                rw [← List.getD_eq_getElem?_getD, classOf_eq t _ eprev hprev]
                omega
              have hnz : ¬ classOf t (arr[count]?.getD 0) = 0 := by
                rw [← List.getD_eq_getElem?_getD, classOf_eq t _ enext hnext]
                omega
              simp [List.filter_append, List.filter_cons, hpz, hnz]
    · rw [if_neg hlt] at h
      simp only [Option.some.injEq] at h
      subst h
      rfl

/-- Termination core: strong induction on the measure
inversions * (length + 1) + (length - count).  A continue step keeps the
inversion count and raises the index; a swap removes one inverted pair
(inversions_swap) while moving the index by at most one, so the measure
strictly drops in every iteration and some fuel always suffices. -/
theorem reorder_loop_total_aux (t : Table) :
    ∀ N arr count,
      inversions (classOf t) arr * (arr.length + 1) +
        (arr.length - count) < N →
      (∀ x ∈ arr, (get_code_entry t x).isSome) →
      1 ≤ count →
      ∃ fuel r, reorder_loop t fuel arr count = some r := by
  intro N
  induction N with
  | zero => intro arr count hm; exact absurd hm (Nat.not_lt_zero _)
  | succ N ih =>
    intro arr count hm hcomp h1
    by_cases hlt : count < arr.length
    · have hmp : arr.getD (count - 1) 0 ∈ arr :=
        getD_mem_of_lt arr (count - 1) (by omega)
      have hmn : arr.getD count 0 ∈ arr := getD_mem_of_lt arr count hlt
      rcases Option.isSome_iff_exists.mp (hcomp _ hmp) with ⟨eprev, hprev⟩
      rcases Option.isSome_iff_exists.mp (hcomp _ hmn) with ⟨enext, hnext⟩
      by_cases hc1 : enext.cclass = 0 ∨ eprev.cclass = 0
      · rcases ih arr (count + 1) (by omega) hcomp (by omega) with
          ⟨fuel, r, hrec⟩
        refine ⟨fuel + 1, r, ?_⟩
        simp only [reorder_loop, if_pos hlt, hprev, hnext, if_pos hc1]
        exact hrec
      · by_cases hc2 : eprev.cclass ≤ enext.cclass
        · rcases ih arr (count + 1) (by omega) hcomp (by omega) with
            ⟨fuel, r, hrec⟩
          refine ⟨fuel + 1, r, ?_⟩
          simp only [reorder_loop, if_pos hlt, hprev, hnext, if_neg hc1,
            if_pos hc2]
          exact hrec
        · have hsw := swap_set_decomp (count - 1) arr (by omega)
          have hdc := list_decomp_two (count - 1) arr (by omega)
          rw [Nat.sub_add_cancel h1] at hsw hdc
          have hbad : badPairB (classOf t) (arr.getD (count - 1) 0)
              (arr.getD count 0) = true := by
            simp only [badPairB, classOf_eq t _ eprev hprev,
              classOf_eq t _ enext hnext, Bool.and_eq_true, bne_iff_ne,
              ne_eq, decide_eq_true_eq]
            constructor
            · intro hz; exact hc1 (Or.inl hz)
            · omega
          have hswap := inversions_swap (classOf t) (arr.getD (count - 1) 0)
            (arr.getD count 0) hbad (arr.take (count - 1))
            (arr.drop (count + 1))
          have hinv' : inversions (classOf t)
              ((arr.set (count - 1) (arr.getD count 0)).set count
                (arr.getD (count - 1) 0)) + 1 =
              inversions (classOf t) arr := by
            rw [hsw]
            conv_rhs => rw [hdc]
            have e2 : count - 1 + 2 = count + 1 := by omega
            rw [e2]
            have el : arr.take (count - 1) ++
                [arr.getD count 0, arr.getD (count - 1) 0] ++
                arr.drop (count + 1) =
                arr.take (count - 1) ++ (arr.getD count 0 ::
                  arr.getD (count - 1) 0 :: arr.drop (count + 1)) := by
              simp
            have er : arr.take (count - 1) ++
                [arr.getD (count - 1) 0, arr.getD count 0] ++
                arr.drop (count + 1) =
                arr.take (count - 1) ++ (arr.getD (count - 1) 0 ::
                  arr.getD count 0 :: arr.drop (count + 1)) := by
              simp
            rw [el, er]
            exact hswap
          have hlen : ((arr.set (count - 1) (arr.getD count 0)).set count
              (arr.getD (count - 1) 0)).length = arr.length := by
            simp
          have hcomp' : ∀ x ∈ (arr.set (count - 1) (arr.getD count 0)).set
              count (arr.getD (count - 1) 0),
              (get_code_entry t x).isSome := by
            intro x hx
            rcases List.mem_or_eq_of_mem_set hx with hx' | rfl
            · rcases List.mem_or_eq_of_mem_set hx' with hx'' | rfl
              · exact hcomp x hx''
              · exact hcomp _ hmn
            · exact hcomp _ hmp
          have hmeas : inversions (classOf t)
              ((arr.set (count - 1) (arr.getD count 0)).set count
                (arr.getD (count - 1) 0)) *
                (((arr.set (count - 1) (arr.getD count 0)).set count
                  (arr.getD (count - 1) 0)).length + 1) +
              (((arr.set (count - 1) (arr.getD count 0)).set count
                (arr.getD (count - 1) 0)).length -
                (if 1 < count then count - 1 else count + 1)) < N := by
            rw [hlen]
            have hd : inversions (classOf t)
                ((arr.set (count - 1) (arr.getD count 0)).set count
                  (arr.getD (count - 1) 0)) + 1 =
                inversions (classOf t) arr := hinv'
            have hstep : inversions (classOf t)
                ((arr.set (count - 1) (arr.getD count 0)).set count
                  (arr.getD (count - 1) 0)) * (arr.length + 1) +
                (arr.length + 1) =
                inversions (classOf t) arr * (arr.length + 1) := by
              rw [← hd, Nat.add_mul, Nat.one_mul]
            omega
          rcases ih _ (if 1 < count then count - 1 else count + 1) hmeas
            hcomp' (by split <;> omega) with ⟨fuel, r, hrec⟩
          refine ⟨fuel + 1, r, ?_⟩
          simp only [reorder_loop, if_pos hlt, hprev, hnext, if_neg hc1,
            if_neg hc2]
          exact hrec
    · refine ⟨0, arr, ?_⟩
      simp only [reorder_loop]
      rw [if_neg hlt]

/-- Bitwise-or of a shifted value with a small addend is plain addition:
the building step of the codec's big-endian packing. -/
theorem lor_mul_pow_add (a b k : Nat) (hb : b < 2 ^ k) :
    a * 2 ^ k ||| b = a * 2 ^ k + b := by
  apply Nat.eq_of_testBit_eq
  intro i
  rw [Nat.testBit_or, ← Nat.shiftLeft_eq, Nat.testBit_shiftLeft,
    Nat.shiftLeft_eq]
  by_cases hik : k ≤ i
  · have hbf : b.testBit i = false :=
      Nat.testBit_lt_two_pow
        (lt_of_lt_of_le hb (Nat.pow_le_pow_right (by omega) hik))
    have hdec : decide (i ≥ k) = true := by simpa [ge_iff_le] using hik
    rw [hbf, Bool.or_false, hdec, Bool.true_and]
    rw [Nat.testBit_to_div_mod, Nat.testBit_to_div_mod]
    have h2i : (2 : Nat) ^ i = 2 ^ k * 2 ^ (i - k) := by
      rw [← pow_add]
      congr 1
      omega
    have hdiv : (a * 2 ^ k + b) / 2 ^ i = a / 2 ^ (i - k) := by
      rw [h2i, ← Nat.div_div_eq_div_mul]
      congr 1
      rw [Nat.add_comm, Nat.add_mul_div_right _ _ (Nat.two_pow_pos k),
        Nat.div_eq_of_lt hb, Nat.zero_add]
    rw [hdiv]
  · have hdec : decide (i ≥ k) = false := by simpa [ge_iff_le] using hik
    rw [hdec, Bool.false_and, Bool.false_or]
    rw [Nat.testBit_to_div_mod, Nat.testBit_to_div_mod]
    have hsplit : (2 : Nat) ^ k = 2 ^ (k - i) * 2 ^ i := by
      rw [← pow_add]
      congr 1
      omega
    have hdiv : (a * 2 ^ k + b) / 2 ^ i = b / 2 ^ i + a * 2 ^ (k - i) := by
      rw [hsplit, ← Nat.mul_assoc, Nat.add_comm,
        Nat.add_mul_div_right _ _ (Nat.two_pow_pos i)]
    rw [hdiv]
    have hkim : (2 : Nat) ^ (k - i) = 2 ^ (k - i - 1) * 2 := by
      rw [← pow_succ]
      congr 1
      omega
    rw [hkim, ← Nat.mul_assoc, Nat.add_mul_mod_self_right]

/-- The byte-mask tests of array_to_utf8 extract the corresponding byte:
masking with 0xff shifted left by k bits equals the byte at position k,
shifted back into place. -/
theorem and_mask_shift (y k : Nat) :
    y &&& 255 <<< k = ((y >>> k) % 256) <<< k := by
  have h255 : (255 : Nat) = 2 ^ 8 - 1 := by norm_num
  have h256 : (256 : Nat) = 2 ^ 8 := by norm_num
  rw [h255, h256]
  apply Nat.eq_of_testBit_eq
  intro i
  rw [Nat.testBit_and, Nat.testBit_shiftLeft, Nat.testBit_shiftLeft,
    Nat.testBit_two_pow_sub_one, Nat.testBit_mod_two_pow,
    Nat.testBit_shiftRight]
  by_cases hik : k ≤ i
  · have hki : k + (i - k) = i := by omega
    rw [hki]
    simp [ge_iff_le, hik, Bool.and_comm, Bool.and_left_comm]
  · simp [ge_iff_le, hik]

/-- The non-zero test of a byte mask is the non-zero test of the byte. -/
theorem emit_guard (y k : Nat) :
    (y &&& 255 <<< k ≠ 0) ↔ ((y >>> k) % 256 ≠ 0) := by
  rw [and_mask_shift, Nat.shiftLeft_eq]
  have h2 : (0 : Nat) < 2 ^ k := Nat.two_pow_pos k
  constructor
  · intro h hz
    exact h (by rw [hz, Nat.zero_mul])
  · intro h hz
    rcases Nat.mul_eq_zero.mp hz with hz | hz
    · exact h hz
    · omega

/-- array_to_utf8 emits, for each element, exactly the non-zero bytes of its
4-byte big-endian representation, most significant first. -/
theorem emit_code_eq (code : Nat) :
    emit_code code = (be_bytes code).filter (fun b => b != 0) := by
  have g3 : (code &&& 0xff000000 ≠ 0) ↔ ((code >>> 24) % 256 ≠ 0) := by
    simpa using emit_guard code 24
  have g2 : (code &&& 0x00ff0000 ≠ 0) ↔ ((code >>> 16) % 256 ≠ 0) := by
    simpa using emit_guard code 16
  have g1 : (code &&& 0x0000ff00 ≠ 0) ↔ ((code >>> 8) % 256 ≠ 0) := by
    simpa using emit_guard code 8
  have g0 : (code &&& 0x000000ff ≠ 0) ↔ (code % 256 ≠ 0) := by
    simpa using emit_guard code 0
  simp only [emit_code, g3, g2, g1, g0, be_bytes]
  by_cases h3 : (code >>> 24) % 256 = 0 <;>
    by_cases h2 : (code >>> 16) % 256 = 0 <;>
      by_cases h1 : (code >>> 8) % 256 = 0 <;>
        by_cases h0 : code % 256 = 0 <;>
          simp [h3, h2, h1, h0, List.filter_cons, bne_iff_ne]

/-- Reading a byte inside the leading unit ignores the tail. -/
theorem byteAt_append (u rest : List Nat) (i : Nat) (h : i < u.length) :
    byteAt (u ++ rest) i = byteAt u i := by
  unfold byteAt
  rw [List.getD_eq_getElem?_getD, List.getD_eq_getElem?_getD,
    List.getElem?_append_left h]

/-- pg_utf8_islegal only reads the unit's own bytes, so a tail after the
unit does not change its verdict. -/
theorem islegal_append (u rest : List Nat) (l : Nat) (h : l ≤ u.length) :
    pg_utf8_islegal (u ++ rest) l = pg_utf8_islegal u l := by
  match l, h with
  | 0, _ => rfl
  | 1, h =>
    simp only [pg_utf8_islegal, byteAt_append u rest 0 (by omega)]
  | 2, h =>
    simp only [pg_utf8_islegal, byteAt_append u rest 0 (by omega),
      byteAt_append u rest 1 (by omega)]
  | 3, h =>
    simp only [pg_utf8_islegal, byteAt_append u rest 0 (by omega),
      byteAt_append u rest 1 (by omega), byteAt_append u rest 2 (by omega)]
  | 4, h =>
    simp only [pg_utf8_islegal, byteAt_append u rest 0 (by omega),
      byteAt_append u rest 1 (by omega), byteAt_append u rest 2 (by omega),
      byteAt_append u rest 3 (by omega)]
  | n + 5, _ => rfl

/-- utf8_pack only reads the unit's own bytes. -/
theorem pack_append (u rest : List Nat) (l : Nat) (h : l ≤ u.length) :
    utf8_pack (u ++ rest) l = utf8_pack u l := by
  match l, h with
  | 0, _ => rfl
  | 1, h =>
    simp only [utf8_pack, byteAt_append u rest 0 (by omega)]
  | 2, h =>
    simp only [utf8_pack, byteAt_append u rest 0 (by omega),
      byteAt_append u rest 1 (by omega)]
  | 3, h =>
    simp only [utf8_pack, byteAt_append u rest 0 (by omega),
      byteAt_append u rest 1 (by omega), byteAt_append u rest 2 (by omega)]
  | 4, h =>
    simp only [utf8_pack, byteAt_append u rest 0 (by omega),
      byteAt_append u rest 1 (by omega), byteAt_append u rest 2 (by omega),
      byteAt_append u rest 3 (by omega)]
  | n + 5, _ => rfl

/-- The validating first pass steps through every leading legal unit: the
count over a string made of legal units followed by anything is the count of
the remainder plus the number of units. -/
theorem utf8_count_flatten :
    ∀ (us : List (List Nat)) (rest : List Nat), (∀ u ∈ us, legalUnit u) →
      utf8_count (us.flatten ++ rest) =
        match utf8_count rest with
        | some n => some (n + us.length)
        | none => none := by
  intro us
  induction us with
  | nil =>
    intro rest h
    simp only [List.flatten_nil, List.nil_append, List.length_nil]
    cases utf8_count rest <;> rfl
  | cons u us ih =>
    intro rest h
    obtain ⟨hne, hbytes, h0, hlen, hleg⟩ := h u (List.mem_cons_self u us)
    obtain ⟨b, u', rfl⟩ := List.exists_cons_of_ne_nil hne
    have hb : byteAt (b :: u') 0 = b := rfl
    rw [hb] at h0
    have harr : ((b :: u') :: us).flatten ++ rest =
        b :: (u' ++ (us.flatten ++ rest)) := by simp
    rw [harr]
    rw [utf8_count]
    rw [if_neg h0]
    have hml : pg_utf_mblen b = (b :: u').length := by
      rw [hlen, hb]
    have hcons : b :: (u' ++ (us.flatten ++ rest)) =
        (b :: u') ++ (us.flatten ++ rest) := by simp
    have hlegal : pg_utf8_islegal (b :: (u' ++ (us.flatten ++ rest)))
        (pg_utf_mblen b) = true := by
      rw [hml, hcons, islegal_append _ _ _ (by omega)]
      exact hleg
    rw [hlegal]
    simp only [if_true]
    have hdrop : (b :: (u' ++ (us.flatten ++ rest))).drop (pg_utf_mblen b) =
        us.flatten ++ rest := by
      rw [hml, hcons, List.drop_left]
    rw [hdrop, ih rest (fun v hv => h v (List.mem_cons_of_mem (b :: u') hv))]
    cases utf8_count rest with
    | none => rfl
    | some n =>
      simp only [List.length_cons]
      congr 1

/-- The fill pass packs exactly the scanned units in order. -/
theorem utf8_fill_flatten :
    ∀ (us : List (List Nat)) (rest : List Nat), (∀ u ∈ us, legalUnit u) →
      utf8_fill (us.flatten ++ rest) =
        us.map (fun u => utf8_pack u u.length) ++ utf8_fill rest := by
  intro us
  induction us with
  | nil => intro rest h; simp
  | cons u us ih =>
    intro rest h
    obtain ⟨hne, hbytes, h0, hlen, hleg⟩ := h u (List.mem_cons_self u us)
    obtain ⟨b, u', rfl⟩ := List.exists_cons_of_ne_nil hne
    have hb : byteAt (b :: u') 0 = b := rfl
    rw [hb] at h0
    have harr : ((b :: u') :: us).flatten ++ rest =
        b :: (u' ++ (us.flatten ++ rest)) := by simp
    rw [harr, utf8_fill, if_neg h0]
    have hml : pg_utf_mblen b = (b :: u').length := by rw [hlen, hb]
    have hcons : b :: (u' ++ (us.flatten ++ rest)) =
        (b :: u') ++ (us.flatten ++ rest) := by simp
    have hdrop : (b :: (u' ++ (us.flatten ++ rest))).drop (pg_utf_mblen b) =
        us.flatten ++ rest := by
      rw [hml, hcons, List.drop_left]
    have hpack : utf8_pack (b :: (u' ++ (us.flatten ++ rest)))
        (pg_utf_mblen b) = utf8_pack (b :: u') (b :: u').length := by
      rw [hml, hcons, pack_append _ _ _ (by omega)]
    rw [hdrop, hpack,
      ih rest (fun v hv => h v (List.mem_cons_of_mem (b :: u') hv))]
    simp

/-- A legal unit has length 1 to 4 (other lengths fail pg_utf8_islegal). -/
theorem legalUnit_len (u : List Nat) (hu : legalUnit u) :
    u.length = 1 ∨ u.length = 2 ∨ u.length = 3 ∨ u.length = 4 := by
  obtain ⟨hne, hbytes, h0, hlen, hleg⟩ := hu
  rcases hl : u.length with _ | _ | _ | _ | _ | n
  · exact absurd (List.length_eq_zero.mp hl) hne
  · omega
  · omega
  · omega
  · omega
  · rw [hl] at hleg
    simp [pg_utf8_islegal] at hleg

/-- Every continuation byte accepted by contOK is in 0x80..0xBF. -/
theorem contOK_range (a : Nat) (h : contOK a = true) :
    0x80 ≤ a ∧ a ≤ 0xBF := by
  simp only [contOK, Bool.and_eq_true, decide_eq_true_eq] at h
  exact h

/-- Every second byte accepted by byte1OK is in 0x80..0xBF, whatever the
lead byte. -/
theorem byte1OK_range (b0 a : Nat) (h : byte1OK b0 a = true) :
    0x80 ≤ a ∧ a ≤ 0xBF := by
  unfold byte1OK at h
  repeat' split at h
  all_goals
    simp only [Bool.and_eq_true, decide_eq_true_eq] at h
  all_goals omega

/-- Every lead byte accepted by headOK is at most 0xF4. -/
theorem headOK_range (a : Nat) (h : headOK a = true) : a ≤ 0xF4 := by
  simp only [headOK, Bool.and_eq_true, Bool.not_eq_true',
    Bool.and_eq_false_iff, decide_eq_true_eq, decide_eq_false_iff_not,
    not_le, not_lt] at h
  omega

/-- Encoding inverts packing on a legal unit: the packed integer of a legal
1-4 byte unit has exactly the unit's bytes as its non-zero big-endian bytes
(every byte of a legal unit is non-zero), so array_to_utf8 re-emits the unit
verbatim. -/
theorem emit_pack (u : List Nat) (hu : legalUnit u) :
    emit_code (utf8_pack u u.length) = u := by
  have h28 : (2 : Nat) ^ 8 = 256 := by norm_num
  have h216 : (2 : Nat) ^ 16 = 65536 := by norm_num
  have h224 : (2 : Nat) ^ 24 = 16777216 := by norm_num
  obtain ⟨hne, hbytes, h0, hlen, hleg⟩ := hu
  rcases legalUnit_len u ⟨hne, hbytes, h0, hlen, hleg⟩ with hl | hl | hl | hl
  · obtain ⟨b0, rfl⟩ := List.length_eq_one.mp hl
    have hb0 : b0 ≠ 0 := h0
    have hc0 : b0 < 256 := hbytes b0 (by simp)
    show emit_code (utf8_pack [b0] 1) = [b0]
    have hpv : utf8_pack [b0] 1 = b0 := rfl
    have hbe : be_bytes b0 = [0, 0, 0, b0] := by
      unfold be_bytes
      rw [Nat.shiftRight_eq_div_pow, Nat.shiftRight_eq_div_pow,
        Nat.shiftRight_eq_div_pow, h224, h216, h28]
      simp only [List.cons.injEq, and_true]
      omega
    rw [hpv, emit_code_eq, hbe]
    simp [List.filter_cons, bne_iff_ne, hb0]
  · obtain ⟨b0, b1, rfl⟩ := List.length_eq_two.mp hl
    have hb0 : b0 ≠ 0 := h0
    have hc0 : b0 < 256 := hbytes b0 (by simp)
    have hc1 : b1 < 256 := hbytes b1 (by simp)
    have hleg2 : byte1OK b0 b1 = true ∧ headOK b0 = true := by
      simpa [pg_utf8_islegal, byteAt] using hleg
    have hb1r := byte1OK_range b0 b1 hleg2.1
    have hb1 : b1 ≠ 0 := by omega
    show emit_code (utf8_pack [b0, b1] 2) = [b0, b1]
    have hpv : utf8_pack [b0, b1] 2 = b0 * 256 + b1 := by
      show b0 <<< 8 ||| b1 = b0 * 256 + b1
      rw [Nat.shiftLeft_eq, lor_mul_pow_add b0 b1 8 (by omega), h28]
    have hbe : be_bytes (b0 * 256 + b1) = [0, 0, b0, b1] := by
      unfold be_bytes
      rw [Nat.shiftRight_eq_div_pow, Nat.shiftRight_eq_div_pow,
        Nat.shiftRight_eq_div_pow, h224, h216, h28]
      simp only [List.cons.injEq, and_true]
      omega
    rw [hpv, emit_code_eq, hbe]
    simp [List.filter_cons, bne_iff_ne, hb0, hb1]
  · obtain ⟨b0, b1, b2, rfl⟩ := List.length_eq_three.mp hl
    have hb0 : b0 ≠ 0 := h0
    have hc0 : b0 < 256 := hbytes b0 (by simp)
    have hc1 : b1 < 256 := hbytes b1 (by simp)
    have hc2 : b2 < 256 := hbytes b2 (by simp)
    have hleg3 : (contOK b2 = true ∧ byte1OK b0 b1 = true) ∧
        headOK b0 = true := by
      simpa [pg_utf8_islegal, byteAt] using hleg
    have hb1r := byte1OK_range b0 b1 hleg3.1.2
    have hb2r := contOK_range b2 hleg3.1.1
    have hb1 : b1 ≠ 0 := by omega
    have hb2 : b2 ≠ 0 := by omega
    show emit_code (utf8_pack [b0, b1, b2] 3) = [b0, b1, b2]
    have hpv : utf8_pack [b0, b1, b2] 3 = b0 * 65536 + b1 * 256 + b2 := by
      show b0 <<< 16 ||| b1 <<< 8 ||| b2 = b0 * 65536 + b1 * 256 + b2
      rw [Nat.shiftLeft_eq, Nat.shiftLeft_eq]
      have hb1p : b1 * 2 ^ 8 < 2 ^ 16 := by
        rw [h28, h216]
        omega
      rw [lor_mul_pow_add b0 (b1 * 2 ^ 8) 16 hb1p]
      have hfac : b0 * 2 ^ 16 + b1 * 2 ^ 8 = (b0 * 2 ^ 8 + b1) * 2 ^ 8 := by
        rw [h28, h216]
        ring
      rw [hfac, lor_mul_pow_add _ b2 8 (by omega), h28]
      ring
    have hbe : be_bytes (b0 * 65536 + b1 * 256 + b2) = [0, b0, b1, b2] := by
      unfold be_bytes
      rw [Nat.shiftRight_eq_div_pow, Nat.shiftRight_eq_div_pow,
        Nat.shiftRight_eq_div_pow, h224, h216, h28]
      simp only [List.cons.injEq, and_true]
      omega
    rw [hpv, emit_code_eq, hbe]
    simp [List.filter_cons, bne_iff_ne, hb0, hb1, hb2]
  · rcases u with _ | ⟨b0, _ | ⟨b1, _ | ⟨b2, _ | ⟨b3, tail⟩⟩⟩⟩ <;>
      simp only [List.length_cons, List.length_nil] at hl <;> try omega
    have htail : tail = [] := by
      have : tail.length = 0 := by omega
      exact List.length_eq_zero.mp this
    subst htail
    have hb0 : b0 ≠ 0 := h0
    have hc0 : b0 < 256 := hbytes b0 (by simp)
    have hc1 : b1 < 256 := hbytes b1 (by simp)
    have hc2 : b2 < 256 := hbytes b2 (by simp)
    have hc3 : b3 < 256 := hbytes b3 (by simp)
    have hleg4 : ((contOK b3 = true ∧ contOK b2 = true) ∧
        byte1OK b0 b1 = true) ∧ headOK b0 = true := by
      simpa [pg_utf8_islegal, byteAt] using hleg
    have hb1r := byte1OK_range b0 b1 hleg4.1.2
    have hb2r := contOK_range b2 hleg4.1.1.2
    have hb3r := contOK_range b3 hleg4.1.1.1
    have hb1 : b1 ≠ 0 := by omega
    have hb2 : b2 ≠ 0 := by omega
    have hb3 : b3 ≠ 0 := by omega
    show emit_code (utf8_pack [b0, b1, b2, b3] 4) = [b0, b1, b2, b3]
    have hpv : utf8_pack [b0, b1, b2, b3] 4 =
        b0 * 16777216 + b1 * 65536 + b2 * 256 + b3 := by
      show b0 <<< 24 ||| b1 <<< 16 ||| b2 <<< 8 ||| b3 = _
      rw [Nat.shiftLeft_eq, Nat.shiftLeft_eq, Nat.shiftLeft_eq]
      have hb1p : b1 * 2 ^ 16 < 2 ^ 24 := by
        rw [h216, h224]
        omega
      rw [lor_mul_pow_add b0 (b1 * 2 ^ 16) 24 hb1p]
      have hfac : b0 * 2 ^ 24 + b1 * 2 ^ 16 =
          (b0 * 2 ^ 8 + b1) * 2 ^ 16 := by
        rw [h28, h216, h224]
        ring
      have hb2p : b2 * 2 ^ 8 < 2 ^ 16 := by
        rw [h28, h216]
        omega
      rw [hfac, lor_mul_pow_add _ (b2 * 2 ^ 8) 16 hb2p]
      have hfac2 : (b0 * 2 ^ 8 + b1) * 2 ^ 16 + b2 * 2 ^ 8 =
          (b0 * 2 ^ 16 + b1 * 2 ^ 8 + b2) * 2 ^ 8 := by
        rw [h28, h216]
        ring
      rw [hfac2, lor_mul_pow_add _ b3 8 (by omega), h28, h216]
      ring
    have hbe : be_bytes (b0 * 16777216 + b1 * 65536 + b2 * 256 + b3) =
        [b0, b1, b2, b3] := by
      unfold be_bytes
      rw [Nat.shiftRight_eq_div_pow, Nat.shiftRight_eq_div_pow,
        Nat.shiftRight_eq_div_pow, h224, h216, h28]
      simp only [List.cons.injEq, and_true]
      omega
    rw [hpv, emit_code_eq, hbe]
    simp [List.filter_cons, bne_iff_ne, hb0, hb1, hb2, hb3]

/-- C3: the count-only pass get_decomposed_size computes exactly the number
of elements the fill pass decompose_code appends, per code point and summed
over a whole input (the two passes also fail together), so the buffer
pg_sasl_prepare allocates from the summed sizes is filled exactly: no element
is left unwritten and no write goes past the end. -/
theorem decompose_size_agreement :
    (∀ (t : Table) (fuel code : Nat),
      (decompose_code t fuel code).map List.length =
        get_decomposed_size t fuel code) ∧
    (∀ (t : Table) (fuel : Nat) (input : List Nat),
      (decompose_input t fuel input).map List.length =
        size_input t fuel input) :=
  ⟨fun t fuel code => decompose_code_eq_length t fuel code,
   fun t fuel input => size_input_eq_length t fuel input⟩

/-- C8: decomposition completeness — every element of the sequence produced
by decompose_code has a table entry whose decomposition is empty (its first
decomposition code is 0), i.e. the output contains terminal code points
only. -/
theorem decompose_terminal (t : Table) (fuel code : Nat) (out : List Nat)
    (h : decompose_code t fuel code = some out) :
    ∀ x ∈ out, ∃ e, get_code_entry t x = some e ∧ entry_decomp e = [] :=
  decompose_code_terminal_aux t fuel code out h

/-- Witness for decompose_terminal: in the concrete table, 4 decomposes to
[2, 3] and each output element is terminal. -/
theorem decompose_terminal_witness :
    ∃ e, get_code_entry exTable 2 = some e ∧ entry_decomp e = [] :=
  decompose_terminal exTable 5 4 [2, 3] (by decide) 2 (by decide)

/-- C6 counterexample: an externally supplied code point with no table entry
does not produce a normal "no such mapping" outcome.  The bsearch miss
returns NULL, the code hits Assert(entry != NULL) and dereferences the
pointer — an unrecoverable fault, modelled as `none`: pg_sasl_prepare has no
non-fault result for such an input. -/
theorem sasl_prepare_miss_counterexample :
    get_code_entry exTable 99 = none ∧
      pg_sasl_prepare exTable 5 [99] = none := by
  constructor
  · decide
  · decide

/-- C6 amended: when an externally supplied input to pg_sasl_prepare
contains an integer with no entry in the decomposition table, the lookup
miss is an unrecoverable fault (failed assertion / NULL dereference,
modelled as `none`), not a normal "no such mapping" outcome: the whole call
aborts abnormally. -/
theorem sasl_prepare_miss_faults (t : Table) (fuel : Nat) (input : List Nat)
    (h : ∃ c ∈ input, get_code_entry t c = none) :
    pg_sasl_prepare t fuel input = none := by
  obtain ⟨c, hc, hmiss⟩ := h
  simp only [pg_sasl_prepare]
  rw [size_input_miss t fuel input c hc hmiss]

/-- Witness for sasl_prepare_miss_faults at a concrete missing code. -/
theorem sasl_prepare_miss_faults_witness :
    pg_sasl_prepare exTable 7 [99] = none :=
  sasl_prepare_miss_faults exTable 7 [99] ⟨99, by decide, by decide⟩

/-- C1: ordering correctness — in the array returned by pg_sasl_prepare,
any two adjacent code points that both have non-zero combining class are in
non-decreasing class order; equivalently, every maximal run of consecutive
non-zero-class code points bounded by starters or by the sequence edges has
non-decreasing combining classes (a run is non-decreasing exactly when each
of its adjacent pairs is). -/
theorem sasl_prepare_ordered (t : Table) (fuel : Nat) (input r : List Nat)
    (h : pg_sasl_prepare t fuel input = some r) :
    ∀ i, 1 ≤ i → i < r.length →
      classOf t (r.getD (i - 1) 0) ≠ 0 → classOf t (r.getD i 0) ≠ 0 →
      classOf t (r.getD (i - 1) 0) ≤ classOf t (r.getD i 0) := by
  simp only [pg_sasl_prepare] at h
  cases hsz : size_input t fuel input with
  | none =>
    simp only [hsz] at h
    exact Option.noConfusion h
  | some n =>
    simp only [hsz] at h
    cases hdec : decompose_input t fuel input with
    | none =>
      simp only [hdec] at h
      exact Option.noConfusion h
    | some d =>
      simp only [hdec] at h
      have hsorted := reorder_loop_sorted_aux t fuel d 1 r (by omega) h
        (fun i hi1 hic _ => absurd hic (by omega))
      intro i hi1 hir hp hn
      have hfalse := hsorted i hi1 hir
      simp only [badPairB, Bool.and_eq_false_iff, bne_eq_false_iff_eq,
        decide_eq_false_iff_not, not_lt] at hfalse
      rcases hfalse with hz | hle
      · exact absurd hz hn
      · exact hle

/-- Witness for sasl_prepare_ordered: prepare [4] decomposes to [2, 3]
(classes 230, 220), the loop swaps them, and the adjacent non-zero classes
of the result [3, 2] are in non-decreasing order (220 ≤ 230). -/
theorem sasl_prepare_ordered_witness :
    classOf exTable (([3, 2] : List Nat).getD 0 0) ≤
      classOf exTable (([3, 2] : List Nat).getD 1 0) :=
  sasl_prepare_ordered exTable 5 [4] [3, 2] (by decide) 1 (by decide)
    (by decide) (by decide) (by decide)

/-- C4: idempotence — a second application of pg_sasl_prepare to its own
output returns the output unchanged (with fuel length + 2, enough for the
one-pass scan of an already decomposed and ordered sequence): every element
of the output is terminal, so the decomposition passes reproduce it, and the
output has no exchangeable pair, so the reordering loop is the identity. -/
theorem sasl_prepare_idempotent (t : Table) (fuel : Nat) (x y : List Nat)
    (h : pg_sasl_prepare t fuel x = some y) :
    pg_sasl_prepare t (y.length + 2) y = some y := by
  simp only [pg_sasl_prepare] at h
  cases hsz : size_input t fuel x with
  | none =>
    simp only [hsz] at h
    exact Option.noConfusion h
  | some n =>
    simp only [hsz] at h
    cases hdec : decompose_input t fuel x with
    | none =>
      simp only [hdec] at h
      exact Option.noConfusion h
    | some d =>
      simp only [hdec] at h
      have hdterm := decompose_input_terminal_aux t fuel x d hdec
      have hyterm : ∀ z ∈ y, ∃ e, get_code_entry t z = some e ∧
          entry_decomp e = [] :=
        fun z hz => hdterm z (reorder_loop_mem t fuel d 1 y h z hz)
      have hycomp : ∀ z ∈ y, (get_code_entry t z).isSome := by
        intro z hz
        rcases hyterm z hz with ⟨e, he, _⟩
        rw [he]
        rfl
      have hysort := reorder_loop_sorted_aux t fuel d 1 y (by omega) h
        (fun i hi1 hic _ => absurd hic (by omega))
      have hsz2 : size_input t (y.length + 2) y = some y.length :=
        size_input_terminal t (y.length + 1) y hyterm
      have hdec2 : decompose_input t (y.length + 2) y = some y :=
        decompose_input_terminal_id t (y.length + 1) y hyterm
      simp only [pg_sasl_prepare, hsz2, hdec2]
      exact reorder_loop_noop t (y.length + 2) 1 y (by omega) hycomp
        (fun i hi1 hil => hysort i hi1 hil) (by omega)

/-- Witness for sasl_prepare_idempotent: prepare [4] = [3, 2] and preparing
[3, 2] again returns [3, 2]. -/
theorem sasl_prepare_idempotent_witness :
    pg_sasl_prepare exTable (([3, 2] : List Nat).length + 2) [3, 2] =
      some [3, 2] :=
  sasl_prepare_idempotent exTable 5 [4] [3, 2] (by decide)

/-- C5: the canonical-ordering loop, whose scan index moves back after a
swap, terminates on every finite array whose elements all have table
entries: some finite fuel suffices for the loop to reach its exit.  The
proof runs on the measure inversions * (length + 1) + (length - count),
which every iteration strictly decreases because a swap removes exactly one
inverted pair (inversions_swap). -/
theorem reorder_loop_terminates (t : Table) (arr : List Nat)
    (h : ∀ x ∈ arr, (get_code_entry t x).isSome) :
    ∃ fuel r, reorder_loop t fuel arr 1 = some r :=
  reorder_loop_total_aux t
    (inversions (classOf t) arr * (arr.length + 1) + (arr.length - 1) + 1)
    arr 1 (by omega) h (by omega)

/-- Witness for reorder_loop_terminates on a concrete unsorted array. -/
theorem reorder_loop_terminates_witness :
    ∃ fuel r, reorder_loop exTable fuel [2, 3] 1 = some r :=
  reorder_loop_terminates exTable [2, 3] (by decide)

/-- C7: starter invariance — the reordering pass of pg_sasl_prepare never
moves a combining-class-0 code point relative to another: the subsequence of
class-0 elements of the output equals that of the input, because a swap
always involves two elements of non-zero class. -/
theorem reorder_starter_invariance (t : Table) (fuel : Nat)
    (arr r : List Nat) (h : reorder_loop t fuel arr 1 = some r) :
    r.filter (fun x => classOf t x == 0) =
      arr.filter (fun x => classOf t x == 0) :=
  reorder_loop_filter_aux t fuel arr 1 r (by omega) h

/-- Witness for reorder_starter_invariance: reordering [1, 2, 3, 1]
(classes 0, 230, 220, 0) swaps only the middle elements and the class-0
subsequence [1, 1] is unchanged. -/
theorem reorder_starter_invariance_witness :
    ([1, 3, 2, 1] : List Nat).filter (fun x => classOf exTable x == 0) =
      ([1, 2, 3, 1] : List Nat).filter (fun x => classOf exTable x == 0) :=
  reorder_starter_invariance exTable 10 [1, 2, 3, 1] [1, 3, 2, 1] (by decide)

/-- C2: codec round trip — for every legally encoded UTF-8 byte string (a
concatenation of legal units, no embedded NUL), decoding succeeds, re-encoding
the decoded array reproduces the input bytes exactly, and consequently
decoding the re-encoded bytes yields the same array again. -/
theorem utf8_round_trip (bytes : List Nat) (h : LegalUtf8 bytes) :
    ∃ codes, utf8_to_array bytes = some codes ∧
      array_to_utf8 codes = bytes ∧
      utf8_to_array (array_to_utf8 codes) = some codes := by
  obtain ⟨us, hus, rfl⟩ := h
  have hcnt : utf8_count us.flatten = some us.length := by
    have hc := utf8_count_flatten us [] hus
    simp only [List.append_nil] at hc
    rw [hc]
    simp [utf8_count]
  have hfill : utf8_fill us.flatten =
      us.map (fun u => utf8_pack u u.length) := by
    have hf := utf8_fill_flatten us [] hus
    simpa [utf8_fill] using hf
  have hdec : utf8_to_array us.flatten =
      some (us.map (fun u => utf8_pack u u.length)) := by
    simp only [utf8_to_array, hcnt, hfill]
  have henc : array_to_utf8 (us.map fun u => utf8_pack u u.length) =
      us.flatten := by
    simp only [array_to_utf8, List.map_map]
    have hm : us.map (emit_code ∘ fun u => utf8_pack u u.length) = us := by
      conv_rhs => rw [← List.map_id us]
      apply List.map_congr_left
      intro a ha
      simp only [Function.comp_apply, id_eq]
      exact emit_pack a (hus a ha)
    rw [hm]
  exact ⟨us.map (fun u => utf8_pack u u.length), hdec, henc, by
    rw [henc]
    exact hdec⟩

/-- Witness for utf8_round_trip on the UTF-8 bytes of "café" (four 1-byte
units and one 2-byte unit). -/
theorem utf8_round_trip_witness :
    ∃ codes, utf8_to_array [99, 97, 102, 195, 169] = some codes ∧
      array_to_utf8 codes = [99, 97, 102, 195, 169] ∧
      utf8_to_array (array_to_utf8 codes) = some codes :=
  utf8_round_trip [99, 97, 102, 195, 169]
    ⟨[[99], [97], [102], [195, 169]], by decide, by decide⟩

/-- C9: malformed input — when the byte string is a sequence of legal units
followed by an illegal unit (e.g. a lone continuation byte), the validating
first pass of utf8_to_array reaches the illegal unit homogeneously and the
whole decode fails: the error aborts the call before any array is built, so
no partial result exists (the model returns `none`, carrying no output). -/
theorem utf8_decode_malformed (us : List (List Nat)) (rest : List Nat)
    (hus : ∀ u ∈ us, legalUnit u) (hne : rest ≠ [])
    (h0 : byteAt rest 0 ≠ 0)
    (hbad : pg_utf8_islegal rest (pg_utf_mblen (byteAt rest 0)) = false) :
    utf8_to_array (us.flatten ++ rest) = none := by
  have hcnt : utf8_count rest = none := by
    obtain ⟨b, rest', rfl⟩ := List.exists_cons_of_ne_nil hne
    have hb : byteAt (b :: rest') 0 = b := rfl
    rw [hb] at h0 hbad
    rw [utf8_count, if_neg h0, hbad]
    simp
  simp only [utf8_to_array, utf8_count_flatten us rest hus, hcnt]

/-- Witness for utf8_decode_malformed: "c" followed by a lone continuation
byte 0x80 fails to decode. -/
theorem utf8_decode_malformed_witness :
    utf8_to_array (([[99]] : List (List Nat)).flatten ++ [128]) = none :=
  utf8_decode_malformed [[99]] [128] (by decide) (by decide) (by decide)
    (by decide)

/-- C10: array_to_utf8 emits, for every input integer, exactly the non-zero
bytes of its 4-byte big-endian representation, most significant first,
skipping a zero byte even when a more significant byte is non-zero; the
integer 0 contributes no bytes at all, so the encoder is not injective on
arbitrary arrays: it encodes [0] and [] to the same string. -/
theorem array_to_utf8_bytes :
    (∀ code : Nat,
      emit_code code = (be_bytes code).filter (fun b => b != 0)) ∧
    array_to_utf8 [0] = array_to_utf8 [] ∧ ([0] : List Nat) ≠ [] := by
  refine ⟨emit_code_eq, by decide, by simp⟩
